import Mathlib

/-!
Verification of the schema-normalization core
(packages/graphql-codegen-core/src/schema/schema-to-template-context.ts).

The TypeScript source is shallowly embedded: the name-to-type map of a
schema (a JS object with string keys, hence ordered and key-unique) is an
association list, machine traversal is explicit recursion or folds, and
the `throw` in the classifier makes the whole construction return
`Except String _`.

External collaborators are modelled at the interface the source uses:
  * the graphql library type predicates (isIntrospectionType, isEnumType)
    follow their graphql-js definitions;
  * the document traversal (visit / visitWithTypeInfo / TypeInfo) is
    abstracted by recording, per document, the sequence of resolved named
    types at its Field nodes in traversal order, which is exactly the data
    the Field visitor callback consumes;
  * graphql-toolkit getDirectives(schema, node) returns the declared
    directives applied on the AST node of its second argument.
-/

deriving instance DecidableEq for Except

/-- Structural kind of a GraphQL named type. The six concrete classes of
the graphql library (GraphQLObjectType, GraphQLInputObjectType,
GraphQLEnumType, GraphQLUnionType, GraphQLInterfaceType,
GraphQLScalarType) get one constructor each; `other` stands for any
value that is an instance of none of them (for example a type coming
from a second, duplicate load of the graphql package). -/
inductive GQLKind where
  | object
  | inputObject
  | enum
  | union
  | interface
  | scalar
  | other
deriving DecidableEq

/-- A GraphQL named type: its name and its structural kind. Within one
schema instance named types are unique per name, so structural equality
of this record models the reference identity the source relies on. -/
structure GraphQLNamedType where
  name : String
  kind : GQLKind
deriving DecidableEq

/-- A parsed operation document, abstracted by the sequence of resolved
named types observed at its Field nodes during the
visitWithTypeInfo traversal, in traversal order. This is the only data
the Field visitor callback of includeIntrospectionTypes reads. -/
structure DocumentFile where
  fieldTypes : List GraphQLNamedType
deriving DecidableEq

/-- The GraphQLTypesMap of the source: a JS object mapping type name to
named type, embedded as an ordered association list. -/
abbrev GraphQLTypesMap : Type := List (String × GraphQLNamedType)

/-- The JS string method key.startsWith(pat), embedded over the character
sequences of the two strings: true iff the character list of pat is a
prefix of the character list of key. -/
def strStartsWith (key pat : String) : Bool :=
  pat.data.isPrefixOf key.data

/-- A GraphQL schema at the interface consumed by the source file:
getTypeMap(), getDirectives() (the declared directives, by name), the
directives applied on the schema definition AST node, and the directives
applied on type definition AST nodes (never read by this source file,
but part of the schema data model). -/
structure GraphQLSchema where
  typeMap : GraphQLTypesMap
  directiveNames : List String
  astNodeDirectives : List String
  typeAstDirectives : List (String × String)
deriving DecidableEq

/-- The names of the eight predefined introspection types of graphql-js;
isIntrospectionType compares the name of its argument against these. -/
def introspectionTypeNames : List String :=
  ["__Schema", "__Directive", "__DirectiveLocation", "__Type",
   "__Field", "__InputValue", "__EnumValue", "__TypeKind"]

/-- graphql-js isIntrospectionType: true iff the type is one of the
predefined introspection types, compared by name. -/
def isIntrospectionType (t : GraphQLNamedType) : Bool :=
  introspectionTypeNames.contains t.name

/-- graphql-js isEnumType: true iff the value is a GraphQLEnumType. -/
def isEnumType (t : GraphQLNamedType) : Bool :=
  t.kind = GQLKind.enum

/-- The GRAPHQL_PRIMITIVES constant of the source. -/
def GRAPHQL_PRIMITIVES : List String :=
  ["String", "Int", "Boolean", "ID", "Float"]

/-- The filter callback of clearTypes:
forcedTypes.includes(key) || (!GRAPHQL_PRIMITIVES.includes(key) && !key.startsWith(two underscores)). -/
def keepKey (forcedTypes : List String) (key : String) : Bool :=
  decide (key ∈ forcedTypes) ||
    (!(decide (key ∈ GRAPHQL_PRIMITIVES)) && !(strStartsWith key "__"))

/-- Object.keys of a JS object embedded as an association list. -/
def objKeys (m : GraphQLTypesMap) : List String :=
  m.map Prod.fst

/-- JS property read typesMap[key]: the value at the key (for an actual
JS object the key occurs at most once; on a general association list this
takes the first binding). -/
def objGet : GraphQLTypesMap → String → Option GraphQLNamedType
  | [], _ => none
  | (k, v) :: rest, key => if k = key then some v else objGet rest key

/-- clearTypes of the source:
Object.keys(typesMap).filter(callback).reduce((obj, key) => obj with the
binding obj[key] = typesMap[key], starting from the empty object).
Rebuilding a fresh object by inserting bindings in key order is the
foldl with append. -/
def clearTypes (typesMap : GraphQLTypesMap) (forcedTypes : List String) : GraphQLTypesMap :=
  ((objKeys typesMap).filter (keepKey forcedTypes)).foldl
    (fun obj key =>
      match objGet typesMap key with
      | some v => obj ++ [(key, v)]
      | none => obj)
    []

/-- The body of the Field visitor of includeIntrospectionTypes: given the
accumulated typesToInclude array and the resolved named type at the
current field, push the type iff it is an introspection enum type not
already included. -/
def includeStep (acc : List GraphQLNamedType) (t : GraphQLNamedType) : List GraphQLNamedType :=
  if isIntrospectionType t = true ∧ isEnumType t = true ∧ t ∉ acc then
    acc ++ [t]
  else
    acc

/-- includeIntrospectionTypes of the source: when documents are given,
visit every document in order, running the Field visitor at each field
node in traversal order against one shared accumulator; otherwise the
empty list. -/
def includeIntrospectionTypes (_schema : GraphQLSchema)
    (documents : Option (List DocumentFile)) : List GraphQLNamedType :=
  match documents with
  | some docs => docs.foldl (fun acc doc => doc.fieldTypes.foldl includeStep acc) []
  | none => []

/-- graphql-toolkit getDirectives(schema, node): of the directives
applied on the AST node of the second argument, those that are declared
in the schema, as a keyed object; embedded as the list of their names. -/
def getDirectives (schema : GraphQLSchema) (nodeAstDirectives : List String) : List String :=
  nodeAstDirectives.filter (fun d => decide (d ∈ schema.directiveNames))

/-- Result record of one per-kind transformer collaborator.
Modelled from the spec: how each type variant is rendered into context
fields is out of scope and delegated to injected transformer
collaborators, each a pure function of (schema, type); the model keeps
the name of the type and the type itself. -/
structure Transformed where
  name : String
  source : GraphQLNamedType
deriving DecidableEq

/-- Modelled from the spec: the transformer collaborator of
./transform-object (transformGraphQLObject), whose rendering details are
out of scope. -/
def transformGraphQLObject (_schema : GraphQLSchema) (t : GraphQLNamedType) : Transformed :=
  ⟨t.name, t⟩

/-- Modelled from the spec: the transformer collaborator of
./transform-enum (transformGraphQLEnum). -/
def transformGraphQLEnum (_schema : GraphQLSchema) (t : GraphQLNamedType) : Transformed :=
  ⟨t.name, t⟩

/-- Modelled from the spec: the transformer collaborator of
./transform-union (transformUnion). -/
def transformUnion (_schema : GraphQLSchema) (t : GraphQLNamedType) : Transformed :=
  ⟨t.name, t⟩

/-- Modelled from the spec: the transformer collaborator of
./transform-interface (transformInterface). -/
def transformInterface (_schema : GraphQLSchema) (t : GraphQLNamedType) : Transformed :=
  ⟨t.name, t⟩

/-- Modelled from the spec: the transformer collaborator of
./transform-scalar (transformScalar). -/
def transformScalar (_schema : GraphQLSchema) (t : GraphQLNamedType) : Transformed :=
  ⟨t.name, t⟩

/-- Result record of the directive transformer collaborator. -/
structure TransformedDirective where
  name : String
deriving DecidableEq

/-- Modelled from the spec: the dedicated directive-transform
collaborator of ./transform-directives (transformDirectives), applied to
the declared directives of the schema; rendering details are out of
scope, one output record per declared directive. -/
def transformDirectives (_schema : GraphQLSchema) (directives : List String) : List TransformedDirective :=
  directives.map (fun d => ⟨d⟩)

/-- Modelled from the spec: objectMapToArray of ../utils/object-map-to-array
turns the name-to-type map into its ordered list of key and value entries
(Object.keys(map).map(key => key and map[key])). -/
def objectMapToArray (m : GraphQLTypesMap) : List (String × GraphQLNamedType) :=
  (objKeys m).filterMap (fun key => (objGet m key).map (fun v => (key, v)))

/-- The SchemaTemplateContext record returned by schemaToTemplateContext. -/
structure SchemaTemplateContext where
  types : List Transformed
  inputTypes : List Transformed
  enums : List Transformed
  unions : List Transformed
  scalars : List Transformed
  interfaces : List Transformed
  definedDirectives : List TransformedDirective
  hasTypes : Bool
  hasInputTypes : Bool
  hasEnums : Bool
  hasUnions : Bool
  hasScalars : Bool
  hasInterfaces : Bool
  hasDefinedDirectives : Bool
  rawSchema : GraphQLSchema
  directives : List String
  usesDirectives : Bool
deriving DecidableEq

/-- The six per-kind accumulating lists of the result during the
typesArray.map dispatch pass. -/
structure DispatchResult where
  types : List Transformed
  inputTypes : List Transformed
  enums : List Transformed
  unions : List Transformed
  scalars : List Transformed
  interfaces : List Transformed
deriving DecidableEq

/-- The typesArray.map dispatch pass of schemaToTemplateContext: each
entry is routed by instanceof checks to exactly one transformer, whose
result is pushed onto the matching list; a value that is an instance of
none of the six classes throws, aborting the whole pass. -/
def dispatchTypes (schema : GraphQLSchema) :
    List (String × GraphQLNamedType) → Except String DispatchResult
  | [] => Except.ok ⟨[], [], [], [], [], []⟩
  | (key, t) :: rest =>
    match t.kind with
    | GQLKind.object =>
      (dispatchTypes schema rest).map
        (fun r => { r with types := transformGraphQLObject schema t :: r.types })
    | GQLKind.inputObject =>
      (dispatchTypes schema rest).map
        (fun r => { r with inputTypes := transformGraphQLObject schema t :: r.inputTypes })
    | GQLKind.enum =>
      (dispatchTypes schema rest).map
        (fun r => { r with enums := transformGraphQLEnum schema t :: r.enums })
    | GQLKind.union =>
      (dispatchTypes schema rest).map
        (fun r => { r with unions := transformUnion schema t :: r.unions })
    | GQLKind.interface =>
      (dispatchTypes schema rest).map
        (fun r => { r with interfaces := transformInterface schema t :: r.interfaces })
    | GQLKind.scalar =>
      (dispatchTypes schema rest).map
        (fun r => { r with scalars := transformScalar schema t :: r.scalars })
    | GQLKind.other =>
      Except.error ("Unexpected GraphQL type definition: " ++ key)

/-- schemaToTemplateContext of the source. The mutable result object is
initialized, the dispatch pass fills the six lists (a throw aborts the
whole call), then definedDirectives and the presence flags are set and
the finished record returned. -/
def schemaToTemplateContext (schema : GraphQLSchema)
    (documents : Option (List DocumentFile)) : Except String SchemaTemplateContext :=
  let introspectionTypesToInclude := includeIntrospectionTypes schema documents
  let directives := getDirectives schema schema.astNodeDirectives
  let rawTypesMap := schema.typeMap
  let typesMap := clearTypes rawTypesMap (introspectionTypesToInclude.map (fun t => t.name))
  let typesArray := objectMapToArray typesMap
  match dispatchTypes schema typesArray with
  | Except.error e => Except.error e
  | Except.ok r =>
    Except.ok
      { types := r.types
        inputTypes := r.inputTypes
        enums := r.enums
        unions := r.unions
        scalars := r.scalars
        interfaces := r.interfaces
        definedDirectives := transformDirectives schema schema.directiveNames
        hasTypes := decide (0 < r.types.length)
        hasInputTypes := decide (0 < r.inputTypes.length)
        hasEnums := decide (0 < r.enums.length)
        hasUnions := decide (0 < r.unions.length)
        hasScalars := decide (0 < r.scalars.length)
        hasInterfaces := decide (0 < r.interfaces.length)
        hasDefinedDirectives := decide (0 < (transformDirectives schema schema.directiveNames).length)
        rawSchema := schema
        directives := directives
        usesDirectives := decide (0 < directives.length) }

/-- The name-to-type map that survives filtering inside
schemaToTemplateContext: the raw type map cleared with the names of the
collected introspection types as the allow-list. -/
def survivingTypesMap (schema : GraphQLSchema)
    (documents : Option (List DocumentFile)) : GraphQLTypesMap :=
  clearTypes schema.typeMap ((includeIntrospectionTypes schema documents).map (fun t => t.name))

/-- Occurrences of a given type name in one transformed output list. -/
def countName (l : List Transformed) (n : String) : Nat :=
  (l.filter (fun t => decide (t.name = n))).length

/-- Total occurrences of a given type name across the six per-kind output
lists of a template context. -/
def totalNameCount (ctx : SchemaTemplateContext) (n : String) : Nat :=
  countName ctx.types n + countName ctx.inputTypes n + countName ctx.enums n +
    countName ctx.unions n + countName ctx.scalars n + countName ctx.interfaces n

section BasicLemmas

theorem objGet_mem {m : GraphQLTypesMap} {k : String} {v : GraphQLNamedType}
    (h : objGet m k = some v) : (k, v) ∈ m := by
  induction m with
  | nil => simp [objGet] at h
  | cons kv rest ih =>
    obtain ⟨k', v'⟩ := kv
    by_cases hk : k' = k
    · subst hk
      simp [objGet] at h
      simp [h]
    · simp [objGet, hk] at h
      exact List.mem_cons_of_mem _ (ih h)

theorem objGet_eq_of_mem_nodup {m : GraphQLTypesMap} {k : String} {v : GraphQLNamedType}
    (hnd : (objKeys m).Nodup) (h : (k, v) ∈ m) : objGet m k = some v := by
  induction m with
  | nil => simp at h
  | cons kv rest ih =>
    obtain ⟨k', v'⟩ := kv
    simp only [objKeys, List.map_cons, List.nodup_cons] at hnd
    rcases List.mem_cons.mp h with h1 | h1
    · simp only [Prod.mk.injEq] at h1
      obtain ⟨rfl, rfl⟩ := h1
      simp [objGet]
    · have hkmem : k ∈ List.map Prod.fst rest := List.mem_map_of_mem Prod.fst h1
      have hk : ¬(k' = k) := fun he => hnd.1 (he ▸ hkmem)
      simp only [objGet, hk, if_false]
      exact ih hnd.2 h1

theorem objGet_some_of_mem_keys {m : GraphQLTypesMap} {k : String}
    (h : k ∈ objKeys m) : ∃ v, objGet m k = some v := by
  induction m with
  | nil => simp [objKeys] at h
  | cons kv rest ih =>
    obtain ⟨k', v'⟩ := kv
    by_cases hk : k' = k
    · exact ⟨v', by simp [objGet, hk]⟩
    · simp only [objKeys, List.map_cons, List.mem_cons] at h
      rcases h with h | h
      · exact absurd h.symm hk
      · simpa [objGet, hk] using ih h

theorem clearTypes_foldl (m : GraphQLTypesMap) (ks : List String) (acc : GraphQLTypesMap) :
    ks.foldl
      (fun obj key =>
        match objGet m key with
        | some v => obj ++ [(key, v)]
        | none => obj)
      acc
      = acc ++ ks.filterMap (fun key => (objGet m key).map (fun v => (key, v))) := by
  induction ks generalizing acc with
  | nil => simp
  | cons k rest ih =>
    cases h : objGet m k with
    | none => simp [List.filterMap_cons, h, ih]
    | some v => simp [List.filterMap_cons, h, ih]

/-- clearTypes written without the accumulating reduce: the filtered keys
paired with their bindings. -/
theorem clearTypes_eq (m : GraphQLTypesMap) (ft : List String) :
    clearTypes m ft
      = ((objKeys m).filter (keepKey ft)).filterMap
          (fun key => (objGet m key).map (fun v => (key, v))) := by
  unfold clearTypes
  rw [clearTypes_foldl]
  simp

theorem filterMap_objGet_nodup {m : GraphQLTypesMap}
    (hnd : (objKeys m).Nodup) (p : String → Bool) :
    ((objKeys m).filter p).filterMap (fun key => (objGet m key).map (fun v => (key, v)))
      = m.filter (fun kv => p kv.1) := by
  induction m with
  | nil => simp [objKeys]
  | cons kv rest ih =>
    obtain ⟨k, v⟩ := kv
    simp only [objKeys, List.map_cons, List.nodup_cons] at hnd
    have hcongr :
        ((objKeys rest).filter p).filterMap
            (fun key => (objGet ((k, v) :: rest) key).map (fun v => (key, v)))
          = ((objKeys rest).filter p).filterMap
            (fun key => (objGet rest key).map (fun v => (key, v))) := by
      apply List.filterMap_congr
      intro a ha
      have ha' : a ∈ objKeys rest := List.mem_of_mem_filter ha
      have hne : k ≠ a := by
        intro he
        exact hnd.1 (he ▸ ha')
      simp [objGet, hne]
    by_cases hp : p k = true
    · have hkeys : (objKeys ((k, v) :: rest)).filter p = k :: (objKeys rest).filter p := by
        simp [objKeys, List.filter_cons, hp]
      have hg : objGet ((k, v) :: rest) k = some v := by simp [objGet]
      rw [hkeys, List.filterMap_cons, hcongr, hg, ih hnd.2]
      simp [List.filter_cons, hp]
    · have hp' : p k = false := by simpa using hp
      have hkeys : (objKeys ((k, v) :: rest)).filter p = (objKeys rest).filter p := by
        simp [objKeys, List.filter_cons, hp']
      rw [hkeys, hcongr, ih hnd.2]
      simp [List.filter_cons, hp']

/-- Under the JS object invariant (unique keys), clearTypes is exactly the
order-preserving filter of the entry list by the survival predicate. -/
theorem clearTypes_eq_filter {m : GraphQLTypesMap} (hnd : (objKeys m).Nodup)
    (ft : List String) :
    clearTypes m ft = m.filter (fun kv => keepKey ft kv.1) := by
  rw [clearTypes_eq, filterMap_objGet_nodup hnd]

/-- Under the JS object invariant, objectMapToArray returns the entry
list itself. -/
theorem objectMapToArray_eq {m : GraphQLTypesMap} (hnd : (objKeys m).Nodup) :
    objectMapToArray m = m := by
  have h := filterMap_objGet_nodup hnd (fun _ => true)
  simpa [objectMapToArray, List.filter_true] using h

/-- The keys of a cleared map are unique whenever the keys of the input
map are. -/
theorem clearTypes_nodup {m : GraphQLTypesMap} (hnd : (objKeys m).Nodup)
    (ft : List String) : (objKeys (clearTypes m ft)).Nodup := by
  rw [clearTypes_eq_filter hnd]
  simp only [objKeys] at hnd ⊢
  exact hnd.sublist ((List.filter_sublist m).map Prod.fst)

end BasicLemmas

section DispatchLemmas

theorem exceptMap_ok {ε α β : Type} {e : Except ε α} {f : α → β} {b : β} :
    e.map f = Except.ok b ↔ ∃ a, e = Except.ok a ∧ f a = b := by
  cases e <;> simp [Except.map]

/-- On a successful pass, each of the six accumulated lists is exactly the
input list restricted to that structural kind, transformed entrywise, in
input order. -/
theorem dispatch_lists {s : GraphQLSchema} {l : List (String × GraphQLNamedType)}
    {r : DispatchResult} (h : dispatchTypes s l = Except.ok r) :
    r.types = (l.filter (fun kv => decide (kv.2.kind = GQLKind.object))).map
        (fun kv => transformGraphQLObject s kv.2)
      ∧ r.inputTypes = (l.filter (fun kv => decide (kv.2.kind = GQLKind.inputObject))).map
        (fun kv => transformGraphQLObject s kv.2)
      ∧ r.enums = (l.filter (fun kv => decide (kv.2.kind = GQLKind.enum))).map
        (fun kv => transformGraphQLEnum s kv.2)
      ∧ r.unions = (l.filter (fun kv => decide (kv.2.kind = GQLKind.union))).map
        (fun kv => transformUnion s kv.2)
      ∧ r.scalars = (l.filter (fun kv => decide (kv.2.kind = GQLKind.scalar))).map
        (fun kv => transformScalar s kv.2)
      ∧ r.interfaces = (l.filter (fun kv => decide (kv.2.kind = GQLKind.interface))).map
        (fun kv => transformInterface s kv.2) := by
  induction l generalizing r with
  | nil =>
    simp only [dispatchTypes] at h
    cases h
    simp
  | cons kv rest ih =>
    obtain ⟨key, t⟩ := kv
    simp only [dispatchTypes] at h
    cases hk : t.kind <;> rw [hk] at h <;> simp only [] at h
    case other => cases h
    all_goals
      obtain ⟨r0, hr0, hfr⟩ := exceptMap_ok.mp h
    all_goals
      obtain ⟨h1, h2, h3, h4, h5, h6⟩ := ih hr0
    all_goals
      subst hfr
    all_goals
      simp [List.filter_cons, hk, h1, h2, h3, h4, h5, h6]

/-- The pass succeeds iff no entry has a structural kind outside the six
known ones. -/
theorem dispatch_ok_exists {s : GraphQLSchema} {l : List (String × GraphQLNamedType)} :
    (∃ r, dispatchTypes s l = Except.ok r) ↔ ∀ kv ∈ l, kv.2.kind ≠ GQLKind.other := by
  induction l with
  | nil => simp [dispatchTypes]
  | cons kv rest ih =>
    obtain ⟨key, t⟩ := kv
    simp only [dispatchTypes]
    cases hk : t.kind <;> simp only []
    case other => simp [hk]
    all_goals
      constructor
      · rintro ⟨r, hr⟩ kv hm
        obtain ⟨r0, hr0, _⟩ := exceptMap_ok.mp hr
        rcases List.mem_cons.mp hm with rfl | hm'
        · simp [hk]
        · exact ih.mp ⟨r0, hr0⟩ kv hm'
      · intro hall
        obtain ⟨r0, hr0⟩ := ih.mpr (fun kv hm => hall kv (List.mem_cons_of_mem _ hm))
        exact ⟨_, by rw [hr0]; rfl⟩

/-- On a successful pass the total number of entries carrying a given
name across the six output lists equals the number of input entries whose
type carries that name: each input entry is routed to exactly one list
and the transformers keep the name. -/
theorem dispatch_count {s : GraphQLSchema} {l : List (String × GraphQLNamedType)}
    {r : DispatchResult} (h : dispatchTypes s l = Except.ok r) (n : String) :
    countName r.types n + countName r.inputTypes n + countName r.enums n +
        countName r.unions n + countName r.scalars n + countName r.interfaces n
      = (l.filter (fun kv => decide (kv.2.name = n))).length := by
  induction l generalizing r with
  | nil =>
    simp only [dispatchTypes] at h
    cases h
    simp [countName]
  | cons kv rest ih =>
    obtain ⟨key, t⟩ := kv
    simp only [dispatchTypes] at h
    cases hk : t.kind <;> rw [hk] at h <;> simp only [] at h
    case other => cases h
    all_goals
      obtain ⟨r0, hr0, hfr⟩ := exceptMap_ok.mp h
    all_goals
      have hcnt := ih hr0
    all_goals
      subst hfr
    all_goals
      by_cases hn : t.name = n <;>
        simp [countName, List.filter_cons, hn, transformGraphQLObject, transformGraphQLEnum,
          transformUnion, transformInterface, transformScalar] <;>
        simp [countName] at hcnt <;>
        omega

end DispatchLemmas

/-- The qualification test of the Field visitor, without the dedup check:
the resolved type is an introspection type and an enum type. -/
def qualifies (t : GraphQLNamedType) : Bool :=
  isIntrospectionType t && isEnumType t

/-- Keep the first occurrence of every element and drop the later
duplicates, preserving order. -/
def dedupFirst : List GraphQLNamedType → List GraphQLNamedType
  | [] => []
  | t :: rest => t :: dedupFirst (rest.filter (fun u => decide (u ≠ t)))
termination_by l => l.length
decreasing_by
  simp only [List.length_cons]
  exact Nat.lt_succ_of_le (List.length_filter_le _ _)

section IntrospectionLemmas

theorem includeStep_of_not_qualifies {acc : List GraphQLNamedType} {t : GraphQLNamedType}
    (hq : qualifies t = false) : includeStep acc t = acc := by
  unfold includeStep
  rw [if_neg]
  rintro ⟨h1, h2, _⟩
  simp [qualifies, h1, h2] at hq

theorem includeStep_of_mem {acc : List GraphQLNamedType} {t : GraphQLNamedType}
    (hm : t ∈ acc) : includeStep acc t = acc := by
  unfold includeStep
  rw [if_neg]
  rintro ⟨_, _, h3⟩
  exact h3 hm

theorem includeStep_push {acc : List GraphQLNamedType} {t : GraphQLNamedType}
    (hq : qualifies t = true) (hm : t ∉ acc) : includeStep acc t = acc ++ [t] := by
  simp only [qualifies, Bool.and_eq_true] at hq
  unfold includeStep
  rw [if_pos ⟨hq.1, hq.2, hm⟩]

/-- Folding the Field visitor over a list of resolved types appends,
after the accumulator, the first occurrences of the qualifying types not
already accumulated, in discovery order. -/
theorem foldl_includeStep (l : List GraphQLNamedType) :
    ∀ acc : List GraphQLNamedType,
      l.foldl includeStep acc
        = acc ++ dedupFirst ((l.filter qualifies).filter (fun t => decide (t ∉ acc))) := by
  induction l with
  | nil => intro acc; simp [dedupFirst]
  | cons t rest ih =>
    intro acc
    by_cases hq : qualifies t = true
    · by_cases hmem : t ∈ acc
      · rw [List.foldl_cons, includeStep_of_mem hmem, ih acc]
        congr 2
        simp [List.filter_cons, hq, hmem]
      · rw [List.foldl_cons, includeStep_push hq hmem, ih (acc ++ [t])]
        have hfil :
            (rest.filter qualifies).filter (fun u => decide (u ∉ acc ++ [t]))
              = ((rest.filter qualifies).filter (fun u => decide (u ∉ acc))).filter
                  (fun u => decide (u ≠ t)) := by
          simp only [List.filter_filter]
          apply List.filter_congr
          intro u _
          by_cases h1 : u ∈ acc <;> by_cases h2 : u = t <;>
            by_cases h3 : qualifies u = true <;> simp [List.mem_append, h1, h2, h3]
        have hhead :
            ((t :: rest).filter qualifies).filter (fun u => decide (u ∉ acc))
              = t :: ((rest.filter qualifies).filter (fun u => decide (u ∉ acc))) := by
          simp [List.filter_cons, hq, hmem]
        rw [hhead]
        show acc ++ [t] ++ _ = acc ++ dedupFirst (t :: _)
        rw [dedupFirst, hfil, List.append_assoc]
        rfl
    · have hq' : qualifies t = false := by simpa using hq
      rw [List.foldl_cons, includeStep_of_not_qualifies hq', ih acc]
      congr 3
      simp [List.filter_cons, hq']

/-- The concatenated sequence of resolved field types across all
documents, in traversal order. -/
def allFieldTypes (docs : List DocumentFile) : List GraphQLNamedType :=
  (docs.map DocumentFile.fieldTypes).flatten

/-- includeIntrospectionTypes with documents given: the first occurrence
of each qualifying resolved field type, in discovery order. -/
theorem includeIntrospectionTypes_some (schema : GraphQLSchema) (docs : List DocumentFile) :
    includeIntrospectionTypes schema (some docs)
      = dedupFirst ((allFieldTypes docs).filter qualifies) := by
  have hsplit : ∀ (ds : List DocumentFile) (acc : List GraphQLNamedType),
      ds.foldl (fun acc doc => doc.fieldTypes.foldl includeStep acc) acc
        = (allFieldTypes ds).foldl includeStep acc := by
    intro ds
    induction ds with
    | nil => intro acc; simp [allFieldTypes]
    | cons d rest ih =>
      intro acc
      simp only [List.foldl_cons, allFieldTypes, List.map_cons, List.flatten_cons,
        List.foldl_append]
      exact ih _
  rw [show includeIntrospectionTypes schema (some docs)
        = docs.foldl (fun acc doc => doc.fieldTypes.foldl includeStep acc) [] from rfl]
  rw [hsplit, foldl_includeStep]
  simp

theorem mem_dedupFirst {t : GraphQLNamedType} :
    ∀ {l : List GraphQLNamedType}, t ∈ dedupFirst l ↔ t ∈ l := by
  intro l
  induction l using dedupFirst.induct with
  | case1 => simp [dedupFirst]
  | case2 hd tl ih =>
    rw [dedupFirst]
    by_cases h : t = hd
    · simp [h]
    · simp only [List.mem_cons, ih, List.mem_filter, h, false_or]
      simp [h]

theorem nodup_dedupFirst : ∀ l : List GraphQLNamedType, (dedupFirst l).Nodup := by
  intro l
  induction l using dedupFirst.induct with
  | case1 => simp [dedupFirst]
  | case2 hd tl ih =>
    rw [dedupFirst]
    refine List.nodup_cons.mpr ⟨?_, ih⟩
    intro hmem
    have := List.mem_filter.mp (mem_dedupFirst.mp hmem)
    simp at this

end IntrospectionLemmas

/-- The finished context record assembled from a successful dispatch
pass over the given schema. -/
def assembleContext (schema : GraphQLSchema) (r : DispatchResult) : SchemaTemplateContext :=
  { types := r.types
    inputTypes := r.inputTypes
    enums := r.enums
    unions := r.unions
    scalars := r.scalars
    interfaces := r.interfaces
    definedDirectives := transformDirectives schema schema.directiveNames
    hasTypes := decide (0 < r.types.length)
    hasInputTypes := decide (0 < r.inputTypes.length)
    hasEnums := decide (0 < r.enums.length)
    hasUnions := decide (0 < r.unions.length)
    hasScalars := decide (0 < r.scalars.length)
    hasInterfaces := decide (0 < r.interfaces.length)
    hasDefinedDirectives := decide (0 < (transformDirectives schema schema.directiveNames).length)
    rawSchema := schema
    directives := getDirectives schema schema.astNodeDirectives
    usesDirectives := decide (0 < (getDirectives schema schema.astNodeDirectives).length) }

section AssemblyLemmas

/-- schemaToTemplateContext factored through the dispatch pass: the
construction is the dispatch over the surviving ordered entries, mapped
into the assembled record, errors propagating unchanged. -/
theorem stc_eq (schema : GraphQLSchema) (docs : Option (List DocumentFile)) :
    schemaToTemplateContext schema docs
      = (dispatchTypes schema (objectMapToArray (survivingTypesMap schema docs))).map
          (assembleContext schema) := by
  simp only [schemaToTemplateContext, survivingTypesMap]
  split
  · next e heq => rw [heq]; rfl
  · next r heq => rw [heq]; rfl

theorem stc_ok_iff {schema : GraphQLSchema} {docs : Option (List DocumentFile)}
    {ctx : SchemaTemplateContext} :
    schemaToTemplateContext schema docs = Except.ok ctx
      ↔ ∃ r, dispatchTypes schema (objectMapToArray (survivingTypesMap schema docs)) = Except.ok r
          ∧ ctx = assembleContext schema r := by
  rw [stc_eq, exceptMap_ok]
  constructor
  · rintro ⟨a, h1, h2⟩; exact ⟨a, h1, h2.symm⟩
  · rintro ⟨a, h1, h2⟩; exact ⟨a, h1, h2.symm⟩

theorem exceptMap_error {ε α β : Type} {e : Except ε α} {f : α → β} {err : ε} :
    e.map f = Except.error err ↔ e = Except.error err := by
  cases e <;> simp [Except.map]

end AssemblyLemmas

section CountLemmas

theorem filter_name_eq_key {m : GraphQLTypesMap}
    (hnames : ∀ kv ∈ m, kv.2.name = kv.1) (p : String → Bool) (k : String) :
    (m.filter (fun kv => p kv.1)).filter (fun kv => decide (kv.2.name = k))
      = m.filter (fun kv => p kv.1 && decide (kv.1 = k)) := by
  rw [List.filter_filter]
  apply List.filter_congr
  intro kv hkv
  rw [hnames kv hkv, Bool.and_comm]

theorem length_filter_key_nodup {m : GraphQLTypesMap}
    (hnd : (objKeys m).Nodup) (p : String → Bool) {k : String} (hk : k ∈ objKeys m) :
    (m.filter (fun kv => p kv.1 && decide (kv.1 = k))).length
      = if p k = true then 1 else 0 := by
  induction m with
  | nil => simp [objKeys] at hk
  | cons kv rest ih =>
    obtain ⟨k', v'⟩ := kv
    simp only [objKeys, List.map_cons, List.nodup_cons] at hnd
    by_cases hkk : k' = k
    · subst hkk
      have hrest : rest.filter (fun kv => p kv.1 && decide (kv.1 = k')) = [] := by
        apply List.filter_eq_nil_iff.mpr
        intro kv hkv
        have : kv.1 ∈ List.map Prod.fst rest := List.mem_map_of_mem Prod.fst hkv
        have hne : ¬(kv.1 = k') := fun he => hnd.1 (he ▸ this)
        simp [hne]
      by_cases hp : p k' = true <;> simp [List.filter_cons, hp, hrest]
    · have hk' : k ∈ objKeys rest := by
        simp only [objKeys, List.map_cons, List.mem_cons] at hk
        rcases hk with h | h
        · exact absurd h.symm hkk
        · exact h
      have := ih hnd.2 hk'
      simp [List.filter_cons, hkk, this]

/-- The allow-list inside schemaToTemplateContext: the names of the
collected introspection types. -/
def allowNames (schema : GraphQLSchema) (docs : Option (List DocumentFile)) : List String :=
  (includeIntrospectionTypes schema docs).map (fun t => t.name)

/-- Central counting fact: in a successfully constructed context, a key
of the raw type map occurs across the six output lists exactly once when
it passes the filter and zero times when it does not. -/
theorem totalNameCount_eq {schema : GraphQLSchema} {docs : Option (List DocumentFile)}
    {ctx : SchemaTemplateContext}
    (hnd : (objKeys schema.typeMap).Nodup)
    (hnames : ∀ kv ∈ schema.typeMap, kv.2.name = kv.1)
    (hok : schemaToTemplateContext schema docs = Except.ok ctx)
    {k : String} (hk : k ∈ objKeys schema.typeMap) :
    totalNameCount ctx k = if keepKey (allowNames schema docs) k = true then 1 else 0 := by
  obtain ⟨r, hr, hctx⟩ := stc_ok_iff.mp hok
  subst hctx
  have hsnd : (objKeys (survivingTypesMap schema docs)).Nodup :=
    clearTypes_nodup hnd (allowNames schema docs)
  rw [objectMapToArray_eq hsnd] at hr
  have h1 : totalNameCount (assembleContext schema r) k
      = countName r.types k + countName r.inputTypes k + countName r.enums k +
          countName r.unions k + countName r.scalars k + countName r.interfaces k := rfl
  rw [h1, dispatch_count hr k]
  have h2 : survivingTypesMap schema docs
      = schema.typeMap.filter (fun kv => keepKey (allowNames schema docs) kv.1) :=
    clearTypes_eq_filter hnd (allowNames schema docs)
  rw [h2, filter_name_eq_key hnames, length_filter_key_nodup hnd _ hk]

end CountLemmas

/-- A plain object type named Query, for concrete instances. -/
def objQuery : GraphQLNamedType := ⟨"Query", GQLKind.object⟩

/-- The built-in String scalar, for concrete instances. -/
def scString : GraphQLNamedType := ⟨"String", GQLKind.scalar⟩

/-- The introspection enum type named __TypeKind. -/
def tkEnum : GraphQLNamedType := ⟨"__TypeKind", GQLKind.enum⟩

/-- The introspection object type named __Type. -/
def tpType : GraphQLNamedType := ⟨"__Type", GQLKind.object⟩

/-- Three user enum types named A, B, C, for order instances. -/
def enA : GraphQLNamedType := ⟨"A", GQLKind.enum⟩

/-- Second of the three user enum types. -/
def enB : GraphQLNamedType := ⟨"B", GQLKind.enum⟩

/-- Third of the three user enum types. -/
def enC : GraphQLNamedType := ⟨"C", GQLKind.enum⟩

/-- A schema holding a query type, the String primitive, an introspection
object type and an introspection enum type, with no directives. -/
def exSchemaIntro : GraphQLSchema :=
  ⟨[("Query", objQuery), ("String", scString), ("__Type", tpType), ("__TypeKind", tkEnum)],
   [], [], []⟩

/-- A document whose only resolved field type is the introspection enum
type __TypeKind. -/
def docEnumRef : DocumentFile := ⟨[tkEnum]⟩

/-- A document whose only resolved field type is the introspection object
type __Type. -/
def docObjRef : DocumentFile := ⟨[tpType]⟩

/-- A schema declaring the directive upper and applying it on a type
definition node only, never on the schema definition node. -/
def schemaTypeDirected : GraphQLSchema :=
  ⟨[("Query", objQuery)], ["upper"], [], [("Query", "upper")]⟩

/-- A schema declaring the directive upper and applying it on the schema
definition node. -/
def schemaSelfDirected : GraphQLSchema :=
  ⟨[("Query", objQuery)], ["upper"], ["upper"], []⟩

/-- A schema with three enum types declared in the order A, B, C. -/
def exSchemaABC : GraphQLSchema :=
  ⟨[("Query", objQuery), ("A", enA), ("B", enB), ("C", enC)], [], [], []⟩

/-- A schema holding a value outside the six concrete type classes, as
would arise from a duplicate graphql library load. -/
def exSchemaBadKind : GraphQLSchema :=
  ⟨[("Query", objQuery), ("Weird", ⟨"Weird", GQLKind.other⟩)], [], [], []⟩

/-- The dispatch result of exSchemaABC: its query type and its three
enums in declaration order. -/
def rABC : DispatchResult :=
  ⟨[transformGraphQLObject exSchemaABC objQuery], [],
   [transformGraphQLEnum exSchemaABC enA, transformGraphQLEnum exSchemaABC enB,
    transformGraphQLEnum exSchemaABC enC], [], [], []⟩

/-- The template context of exSchemaABC with no documents. -/
def ctxABC : SchemaTemplateContext := assembleContext exSchemaABC rABC

/-- The template context of exSchemaIntro with no documents: only the
query type survives. -/
def ctxIntroNone : SchemaTemplateContext :=
  assembleContext exSchemaIntro ⟨[transformGraphQLObject exSchemaIntro objQuery], [], [], [], [], []⟩

/-- The template context of schemaSelfDirected with no documents. -/
def ctxSelfDirected : SchemaTemplateContext :=
  assembleContext schemaSelfDirected
    ⟨[transformGraphQLObject schemaSelfDirected objQuery], [], [], [], [], []⟩

section MoreHelpers

theorem mem_objKeys_filter {m : GraphQLTypesMap} {q : String → Bool} {k : String} :
    k ∈ objKeys (m.filter (fun kv => q kv.1)) ↔ k ∈ objKeys m ∧ q k = true := by
  simp only [objKeys, List.mem_map]
  constructor
  · rintro ⟨kv, hkv, rfl⟩
    obtain ⟨hm, hq⟩ := List.mem_filter.mp hkv
    exact ⟨⟨kv, hm, rfl⟩, hq⟩
  · rintro ⟨⟨kv, hm, rfl⟩, hq⟩
    exact ⟨kv, List.mem_filter.mpr ⟨hm, hq⟩, rfl⟩

theorem objGet_filter {m : GraphQLTypesMap} {q : String → Bool} {k : String}
    (hq : q k = true) :
    objGet (m.filter (fun kv => q kv.1)) k = objGet m k := by
  induction m with
  | nil => simp
  | cons kv rest ih =>
    obtain ⟨k', v'⟩ := kv
    by_cases hk : k' = k
    · subst hk
      simp [List.filter_cons, hq, objGet]
    · cases hq' : q k' <;> simp [List.filter_cons, hq', objGet, hk, ih]

theorem mem_clearTypes_mem {m : GraphQLTypesMap} {allowList : List String}
    {kv : String × GraphQLNamedType} (h : kv ∈ clearTypes m allowList) : kv ∈ m := by
  rw [clearTypes_eq] at h
  obtain ⟨key, _hkey, hsome⟩ := List.mem_filterMap.mp h
  cases hv : objGet m key with
  | none => rw [hv] at hsome; cases hsome
  | some v =>
    rw [hv] at hsome
    cases hsome
    exact objGet_mem hv

end MoreHelpers

/-- The survival predicate exactly as claim C1 words it, for comparison
with the code: the name is not one of the five primitive scalar names,
and (it does not start with the two-character reserved prefix, or it is
in the allow-list). -/
def survivesAsClaimed (allowList : List String) (name : String) : Bool :=
  !(decide (name ∈ GRAPHQL_PRIMITIVES)) &&
    (!(strStartsWith name "__") || decide (name ∈ allowList))

/-- The property claim C3 asserts usesDirectives to equal: at least one
directive is applied somewhere in the schema, whether on the schema
definition node or on a type definition node. -/
def directiveAppliedSomewhere (s : GraphQLSchema) : Bool :=
  !(s.astNodeDirectives.isEmpty) || !(s.typeAstDirectives.isEmpty)

/-- C2: for every type map (with the JS-object unique-key invariant) and
allow-list, the filter drops an entry whose name is one of the five
primitive scalar names unless that name is in the allow-list, drops an
entry whose name carries the reserved two-underscore prefix unless that
name is in the allow-list, and keeps every other entry (in particular,
an allow-listed entry is always kept). -/
theorem clearTypes_drops_and_keeps {m : GraphQLTypesMap}
    (hnd : (objKeys m).Nodup) (allowList : List String) :
    ∀ k v, (k, v) ∈ m →
      ((k ∈ GRAPHQL_PRIMITIVES ∧ k ∉ allowList → (k, v) ∉ clearTypes m allowList)
        ∧ (strStartsWith k "__" = true ∧ k ∉ allowList → (k, v) ∉ clearTypes m allowList)
        ∧ (k ∈ allowList → (k, v) ∈ clearTypes m allowList)
        ∧ (k ∉ GRAPHQL_PRIMITIVES ∧ strStartsWith k "__" = false →
            (k, v) ∈ clearTypes m allowList)) := by
  intro k v hm
  rw [clearTypes_eq_filter hnd]
  refine ⟨?_, ?_, ?_, ?_⟩
  · rintro ⟨h1, h2⟩ hmem
    obtain ⟨-, hkeep⟩ := List.mem_filter.mp hmem
    simp [keepKey, h1, h2] at hkeep
  · rintro ⟨h1, h2⟩ hmem
    obtain ⟨-, hkeep⟩ := List.mem_filter.mp hmem
    simp [keepKey, h1, h2] at hkeep
  · intro h1
    exact List.mem_filter.mpr ⟨hm, by simp [keepKey, h1]⟩
  · rintro ⟨h1, h2⟩
    exact List.mem_filter.mpr ⟨hm, by simp [keepKey, h1, h2]⟩

/-- Witness for C2 at a concrete map: the primitive String entry is
dropped with an empty allow-list, the reserved __Type entry is dropped,
and the plain Query entry is kept. -/
theorem clearTypes_drops_and_keeps_witness :
    ("String", scString) ∉ clearTypes [("String", scString), ("Query", objQuery)] []
      ∧ ("__Type", tpType) ∉ clearTypes [("__Type", tpType), ("Query", objQuery)] []
      ∧ ("Query", objQuery) ∈ clearTypes [("String", scString), ("Query", objQuery)] [] :=
  ⟨(clearTypes_drops_and_keeps (by decide) [] "String" scString (by decide)).1
      ⟨by decide, by decide⟩,
   (clearTypes_drops_and_keeps (by decide) [] "__Type" tpType (by decide)).2.1
      ⟨by decide, by decide⟩,
   (clearTypes_drops_and_keeps (by decide) [] "Query" objQuery (by decide)).2.2.2
      ⟨by decide, by decide⟩⟩

/-- C9: filtering only removes entries, never altering or adding any:
every entry of the filtered map is an entry of the original map (hence
bound to the identical type object), and under the JS-object unique-key
invariant every surviving key reads back exactly the binding of the
original map. -/
theorem clearTypes_frame (m : GraphQLTypesMap) (allowList : List String) :
    (∀ kv ∈ clearTypes m allowList, kv ∈ m)
      ∧ ((objKeys m).Nodup →
          ∀ k, keepKey allowList k = true →
            objGet (clearTypes m allowList) k = objGet m k) := by
  constructor
  · intro kv hkv
    exact mem_clearTypes_mem hkv
  · intro hnd k hkeep
    rw [clearTypes_eq_filter hnd]
    exact objGet_filter hkeep

/-- Witness for C9 at a concrete map: the surviving Query entry of the
filtered map is an entry of the original map, and reading the Query key
from the filtered map returns the original binding. -/
theorem clearTypes_frame_witness :
    ("Query", objQuery) ∈ [("Query", objQuery), ("String", scString)]
      ∧ objGet (clearTypes [("Query", objQuery), ("String", scString)] []) "Query"
          = objGet [("Query", objQuery), ("String", scString)] "Query" :=
  ⟨(clearTypes_frame [("Query", objQuery), ("String", scString)] []).1
      ("Query", objQuery) (by decide),
   (clearTypes_frame [("Query", objQuery), ("String", scString)] []).2
      (by decide) "Query" (by decide)⟩

/-- C1 counterexample: with the allow-list containing the name String,
the primitive scalar entry String survives clearTypes although the
survival condition claimed by C1 is false for it, so the claimed
equivalence fails as stated. -/
theorem c1_survival_counterexample :
    ("String", scString) ∈ clearTypes [("String", scString)] ["String"]
      ∧ survivesAsClaimed ["String"] "String" = false := by decide

/-- C1 amended: a name survives filtering iff it is in the allow-list OR
(it is not a primitive scalar name and does not start with the reserved
prefix); the allow-list disjunct covers primitive names too, not only
reserved-prefixed ones. In a successfully constructed context, a name of
the raw map appears in exactly one output list iff it survives, and in
no list iff it does not. -/
theorem c1_survival_amended {schema : GraphQLSchema} {docs : Option (List DocumentFile)}
    {ctx : SchemaTemplateContext}
    (hnd : (objKeys schema.typeMap).Nodup)
    (hnames : ∀ kv ∈ schema.typeMap, kv.2.name = kv.1)
    (hok : schemaToTemplateContext schema docs = Except.ok ctx) :
    ∀ k ∈ objKeys schema.typeMap,
      (k ∈ objKeys (survivingTypesMap schema docs)
          ↔ (k ∈ allowNames schema docs
              ∨ (k ∉ GRAPHQL_PRIMITIVES ∧ strStartsWith k "__" = false)))
        ∧ (totalNameCount ctx k = 1 ↔ k ∈ objKeys (survivingTypesMap schema docs))
        ∧ (totalNameCount ctx k = 0 ↔ k ∉ objKeys (survivingTypesMap schema docs)) := by
  intro k hk
  have hsurv : k ∈ objKeys (survivingTypesMap schema docs)
      ↔ keepKey (allowNames schema docs) k = true := by
    have h2 : survivingTypesMap schema docs
        = schema.typeMap.filter (fun kv => keepKey (allowNames schema docs) kv.1) :=
      clearTypes_eq_filter hnd (allowNames schema docs)
    rw [h2, mem_objKeys_filter]
    exact ⟨fun h => h.2, fun h => ⟨hk, h⟩⟩
  have hcnt := totalNameCount_eq hnd hnames hok hk
  refine ⟨?_, ?_, ?_⟩
  · rw [hsurv]
    simp [keepKey]
  · rw [hsurv]
    by_cases hkeep : keepKey (allowNames schema docs) k = true
    · simp [hcnt, hkeep]
    · simp only [Bool.not_eq_true] at hkeep
      simp [hcnt, hkeep]
  · rw [hsurv]
    by_cases hkeep : keepKey (allowNames schema docs) k = true
    · simp [hcnt, hkeep]
    · simp only [Bool.not_eq_true] at hkeep
      simp [hcnt, hkeep]

/-- Witness for the amended C1 at a concrete schema: the Query key of
exSchemaIntro survives (it is neither primitive nor reserved) and its
name occurs exactly once across the six output lists. -/
theorem c1_survival_amended_witness :
    ("Query" ∈ objKeys (survivingTypesMap exSchemaIntro none)
        ↔ ("Query" ∈ allowNames exSchemaIntro none
            ∨ ("Query" ∉ GRAPHQL_PRIMITIVES ∧ strStartsWith "Query" "__" = false)))
      ∧ (totalNameCount ctxIntroNone "Query" = 1
          ↔ "Query" ∈ objKeys (survivingTypesMap exSchemaIntro none))
      ∧ (totalNameCount ctxIntroNone "Query" = 0
          ↔ "Query" ∉ objKeys (survivingTypesMap exSchemaIntro none)) :=
  c1_survival_amended (by decide) (by decide) (by decide) "Query" (by decide)

/-- C3 counterexample: schemaTypeDirected declares the directive upper
and applies it on a type definition node, so a directive is applied
somewhere in the schema, yet the constructed context reports
usesDirectives = false, because the source only inspects the directives
applied on the schema definition node itself. -/
theorem c3_usesDirectives_counterexample :
    directiveAppliedSomewhere schemaTypeDirected = true
      ∧ (schemaToTemplateContext schemaTypeDirected none).map (fun c => c.usesDirectives)
          = Except.ok false := by decide

/-- C3 amended: in every successfully constructed context,
usesDirectives is true iff at least one declared directive is applied on
the schema definition AST node itself; in particular it stays false when
directives are merely declared, or applied only on type definition
nodes. -/
theorem c3_usesDirectives_amended {schema : GraphQLSchema}
    {docs : Option (List DocumentFile)} {ctx : SchemaTemplateContext}
    (hok : schemaToTemplateContext schema docs = Except.ok ctx) :
    (ctx.usesDirectives = true ↔ getDirectives schema schema.astNodeDirectives ≠ [])
      ∧ (schema.astNodeDirectives = [] → ctx.usesDirectives = false) := by
  obtain ⟨r, hr, hctx⟩ := stc_ok_iff.mp hok
  subst hctx
  constructor
  · show decide (0 < (getDirectives schema schema.astNodeDirectives).length) = true ↔ _
    simp [List.length_pos_iff_ne_nil]
  · intro h
    show decide (0 < (getDirectives schema schema.astNodeDirectives).length) = false
    simp [getDirectives, h]

/-- Witness for the amended C3: schemaSelfDirected applies its declared
directive on the schema definition node, and the equivalence instantiates
at its context. -/
theorem c3_usesDirectives_amended_witness :
    (ctxSelfDirected.usesDirectives = true
        ↔ getDirectives schemaSelfDirected schemaSelfDirected.astNodeDirectives ≠ [])
      ∧ (schemaSelfDirected.astNodeDirectives = [] → ctxSelfDirected.usesDirectives = false) :=
  @c3_usesDirectives_amended schemaSelfDirected none ctxSelfDirected (by decide)

/-- C4: classification of surviving types is total and exclusive over the
closed six-kind set: when every surviving type has one of the six kinds
the construction succeeds and routes each surviving name into exactly one
output list (one occurrence across the six lists), and when some
surviving type has a kind outside the six the whole construction aborts
with an error, returning no context at all. -/
theorem classification_total_exclusive {schema : GraphQLSchema}
    {docs : Option (List DocumentFile)}
    (hnd : (objKeys schema.typeMap).Nodup)
    (hnames : ∀ kv ∈ schema.typeMap, kv.2.name = kv.1) :
    ((∀ kv ∈ survivingTypesMap schema docs, kv.2.kind ≠ GQLKind.other) →
      ∃ ctx, schemaToTemplateContext schema docs = Except.ok ctx
        ∧ ∀ kv ∈ survivingTypesMap schema docs, totalNameCount ctx kv.1 = 1)
      ∧ ((∃ kv ∈ survivingTypesMap schema docs, kv.2.kind = GQLKind.other) →
        ∃ e, schemaToTemplateContext schema docs = Except.error e) := by
  have hsnd : (objKeys (survivingTypesMap schema docs)).Nodup :=
    clearTypes_nodup hnd (allowNames schema docs)
  have hoeq : objectMapToArray (survivingTypesMap schema docs) = survivingTypesMap schema docs :=
    objectMapToArray_eq hsnd
  constructor
  · intro hall
    have hall' : ∀ kv ∈ objectMapToArray (survivingTypesMap schema docs),
        kv.2.kind ≠ GQLKind.other := by
      rw [hoeq]
      exact hall
    obtain ⟨r, hr⟩ := dispatch_ok_exists.mpr hall'
    have hok : schemaToTemplateContext schema docs = Except.ok (assembleContext schema r) := by
      rw [stc_eq, hr]
      rfl
    refine ⟨assembleContext schema r, hok, ?_⟩
    intro kv hkv
    have hfil : survivingTypesMap schema docs
        = schema.typeMap.filter (fun kv => keepKey (allowNames schema docs) kv.1) :=
      clearTypes_eq_filter hnd (allowNames schema docs)
    have hkv' : kv ∈ schema.typeMap.filter (fun kv => keepKey (allowNames schema docs) kv.1) := by
      rw [← hfil]
      exact hkv
    have hmem : kv ∈ schema.typeMap := (List.mem_filter.mp hkv').1
    have hkeep : keepKey (allowNames schema docs) kv.1 = true := (List.mem_filter.mp hkv').2
    have hk : kv.1 ∈ objKeys schema.typeMap := List.mem_map_of_mem Prod.fst hmem
    rw [totalNameCount_eq hnd hnames hok hk, if_pos hkeep]
  · rintro ⟨kv, hkv, hbad⟩
    cases hd : dispatchTypes schema (objectMapToArray (survivingTypesMap schema docs)) with
    | error e =>
      refine ⟨e, ?_⟩
      rw [stc_eq, hd]
      rfl
    | ok r =>
      exfalso
      exact dispatch_ok_exists.mp ⟨r, hd⟩ kv (by rw [hoeq]; exact hkv) hbad

/-- Witness for C4: the well-kinded schema exSchemaIntro constructs a
context routing each surviving name exactly once, and the schema holding
a value outside the six classes aborts with an error. -/
theorem classification_total_exclusive_witness :
    (∃ ctx, schemaToTemplateContext exSchemaIntro none = Except.ok ctx
        ∧ ∀ kv ∈ survivingTypesMap exSchemaIntro none, totalNameCount ctx kv.1 = 1)
      ∧ (∃ e, schemaToTemplateContext exSchemaBadKind none = Except.error e) :=
  ⟨(classification_total_exclusive (by decide) (by decide)).1 (by decide),
   (classification_total_exclusive (by decide) (by decide)).2
      ⟨("Weird", ⟨"Weird", GQLKind.other⟩), by decide, rfl⟩⟩

/-- C5: a type enters the introspection allow-list iff it is referenced
as the resolved named type of some field of some document, is an
introspection-system type, and is an enum type; with no documents the
allow-list is empty; concretely, a document referencing only the
introspection enum __TypeKind puts that enum into the final enums list
despite its reserved prefix, while a document referencing the
introspection object __Type changes nothing against the no-documents
construction. -/
theorem introspection_allowlist_spec (schema : GraphQLSchema)
    (docs : List DocumentFile) (t : GraphQLNamedType) :
    (t ∈ includeIntrospectionTypes schema (some docs)
        ↔ ((∃ d ∈ docs, t ∈ d.fieldTypes)
            ∧ isIntrospectionType t = true ∧ isEnumType t = true))
      ∧ includeIntrospectionTypes schema none = []
      ∧ (schemaToTemplateContext exSchemaIntro (some [docEnumRef])).map
          (fun c => c.enums.map (fun e => e.name)) = Except.ok ["__TypeKind"]
      ∧ schemaToTemplateContext exSchemaIntro (some [docObjRef])
          = schemaToTemplateContext exSchemaIntro none := by
  refine ⟨?_, rfl, by decide, by decide⟩
  rw [includeIntrospectionTypes_some, mem_dedupFirst, List.mem_filter]
  unfold allFieldTypes qualifies
  simp only [List.mem_flatten, List.mem_map, Bool.and_eq_true]
  constructor
  · rintro ⟨⟨l, ⟨d, hd, rfl⟩, htl⟩, h1, h2⟩
    exact ⟨⟨d, hd, htl⟩, h1, h2⟩
  · rintro ⟨⟨d, hd, htl⟩, h1, h2⟩
    exact ⟨⟨d.fieldTypes, ⟨d, hd, rfl⟩, htl⟩, h1, h2⟩

/-- C6: the introspection collector never returns duplicates and lists
the qualifying types in first-discovery order: its result is exactly the
first occurrence of each qualifying resolved field type, in the order the
documents and their fields are traversed. -/
theorem introspection_dedup_order (schema : GraphQLSchema) (docs : List DocumentFile) :
    includeIntrospectionTypes schema (some docs)
        = dedupFirst ((allFieldTypes docs).filter qualifies)
      ∧ (includeIntrospectionTypes schema (some docs)).Nodup :=
  ⟨includeIntrospectionTypes_some schema docs, by
    rw [includeIntrospectionTypes_some]
    exact nodup_dedupFirst _⟩

/-- C7: the surviving map keeps the iteration order of the raw type map
restricted to surviving names, and every per-kind output list is that
filtered order restricted to the kind, transformed entrywise, with no
re-sorting. -/
theorem order_propagation {schema : GraphQLSchema} {docs : Option (List DocumentFile)}
    {ctx : SchemaTemplateContext}
    (hnd : (objKeys schema.typeMap).Nodup)
    (hok : schemaToTemplateContext schema docs = Except.ok ctx) :
    survivingTypesMap schema docs
        = schema.typeMap.filter (fun kv => keepKey (allowNames schema docs) kv.1)
      ∧ ctx.types = ((survivingTypesMap schema docs).filter
          (fun kv => decide (kv.2.kind = GQLKind.object))).map
            (fun kv => transformGraphQLObject schema kv.2)
      ∧ ctx.inputTypes = ((survivingTypesMap schema docs).filter
          (fun kv => decide (kv.2.kind = GQLKind.inputObject))).map
            (fun kv => transformGraphQLObject schema kv.2)
      ∧ ctx.enums = ((survivingTypesMap schema docs).filter
          (fun kv => decide (kv.2.kind = GQLKind.enum))).map
            (fun kv => transformGraphQLEnum schema kv.2)
      ∧ ctx.unions = ((survivingTypesMap schema docs).filter
          (fun kv => decide (kv.2.kind = GQLKind.union))).map
            (fun kv => transformUnion schema kv.2)
      ∧ ctx.scalars = ((survivingTypesMap schema docs).filter
          (fun kv => decide (kv.2.kind = GQLKind.scalar))).map
            (fun kv => transformScalar schema kv.2)
      ∧ ctx.interfaces = ((survivingTypesMap schema docs).filter
          (fun kv => decide (kv.2.kind = GQLKind.interface))).map
            (fun kv => transformInterface schema kv.2) := by
  obtain ⟨r, hr, hctx⟩ := stc_ok_iff.mp hok
  subst hctx
  have hsnd : (objKeys (survivingTypesMap schema docs)).Nodup :=
    clearTypes_nodup hnd (allowNames schema docs)
  rw [objectMapToArray_eq hsnd] at hr
  obtain ⟨h1, h2, h3, h4, h5, h6⟩ := dispatch_lists hr
  exact ⟨clearTypes_eq_filter hnd (allowNames schema docs), h1, h2, h3, h4, h5, h6⟩

/-- Witness for C7: in the schema declaring the enums A, B, C in that
order, the enums output list is the filtered order restricted to enums,
which is exactly A, B, C. -/
theorem order_propagation_witness :
    ctxABC.enums = ((survivingTypesMap exSchemaABC none).filter
        (fun kv => decide (kv.2.kind = GQLKind.enum))).map
          (fun kv => transformGraphQLEnum exSchemaABC kv.2)
      ∧ ctxABC.enums = [⟨"A", enA⟩, ⟨"B", enB⟩, ⟨"C", enC⟩] :=
  ⟨(@order_propagation exSchemaABC none ctxABC (by decide) (by decide)).2.2.2.1, by decide⟩

/-- C8: in every successfully constructed context each presence flag is
true iff its corresponding list is non-empty. -/
theorem presence_flags {schema : GraphQLSchema} {docs : Option (List DocumentFile)}
    {ctx : SchemaTemplateContext}
    (hok : schemaToTemplateContext schema docs = Except.ok ctx) :
    (ctx.hasTypes = true ↔ ctx.types ≠ [])
      ∧ (ctx.hasInputTypes = true ↔ ctx.inputTypes ≠ [])
      ∧ (ctx.hasEnums = true ↔ ctx.enums ≠ [])
      ∧ (ctx.hasUnions = true ↔ ctx.unions ≠ [])
      ∧ (ctx.hasScalars = true ↔ ctx.scalars ≠ [])
      ∧ (ctx.hasInterfaces = true ↔ ctx.interfaces ≠ [])
      ∧ (ctx.hasDefinedDirectives = true ↔ ctx.definedDirectives ≠ []) := by
  obtain ⟨r, hr, hctx⟩ := stc_ok_iff.mp hok
  subst hctx
  refine ⟨?_, ?_, ?_, ?_, ?_, ?_, ?_⟩ <;>
    simp [assembleContext, List.length_pos_iff_ne_nil]

/-- Witness for C8, also showing the flip the claim describes: with no
enum surviving the flag is false and the list empty, and with the three
enums A, B, C surviving the flag is true. -/
theorem presence_flags_witness :
    (ctxABC.hasEnums = true ↔ ctxABC.enums ≠ [])
      ∧ ctxIntroNone.hasEnums = false ∧ ctxIntroNone.enums = []
      ∧ ctxABC.hasEnums = true :=
  ⟨(@presence_flags exSchemaABC none ctxABC (by decide)).2.2.1, by decide, by decide, by decide⟩

/-- C10: for every schema, an empty but present documents list yields
exactly the same template context as omitting the documents: the
introspection allow-list is empty either way and the whole construction
coincides. -/
theorem empty_documents_eq_none (schema : GraphQLSchema) :
    schemaToTemplateContext schema (some []) = schemaToTemplateContext schema none := rfl
